import Mathlib

/-
Shallow embedding of the multi-provider query aggregation engine of
`rs/ethereum/cketh/minter/src/eth_rpc_client/mod.rs`.

Conventions of the embedding:
* `RpcNodeProvider` is an opaque, totally ordered identity; it is embedded
  as `Nat` (only its order is ever used by the code).
* Rust `BTreeMap` values are embedded as key-sorted association lists;
  `mapInsert` is `BTreeMap::insert` (replace on equal key), `mapOfList` is
  `BTreeMap::from_iter` (later entries win), `mapRemove` is
  `BTreeMap::remove` combined with the remaining map.
* Rust `Result<T, RpcError>` is `Except RpcError T`.
* A Rust `panic!` / `expect` is modelled by an outer `Option` layer:
  `none` is "the code panics", `some r` is "the code returns `r`".
* The transport layer is not part of the embedded file; a round of
  per-provider responses is passed to `sequentialCallUntilOk` as the list
  of results the transport would produce, in provider-list order.
-/

namespace EthRpcClient

/-- Opaque, totally ordered provider identity (`RpcNodeProvider`). -/
abbrev Provider := Nat

/-- Payload of a JSON-RPC application-level error (`JsonRpcError`). -/
structure JsonRpcError where
  code : Int
  message : String
deriving DecidableEq, Repr

/-- Classification of a single provider-call failure (`RpcError`).
The payloads of `HttpOutcallError` and `ProviderError` are opaque to the
aggregation logic and are embedded as `Nat`. -/
inductive RpcError where
  | JsonRpcError (e : JsonRpcError)
  | HttpOutcallError (e : Nat)
  | ProviderError (e : Nat)
deriving DecidableEq, Repr

/-- Rust `Result<T, RpcError>`. -/
abbrev RpcResult (T : Type) := Except RpcError T

instance {E A : Type} [DecidableEq E] [DecidableEq A] :
    DecidableEq (Except E A) := fun a b =>
  match a, b with
  | .ok x, .ok y =>
    if h : x = y then isTrue (by rw [h]) else isFalse (by simp [h])
  | .ok _, .error _ => isFalse (by simp)
  | .error _, .ok _ => isFalse (by simp)
  | .error x, .error y =>
    if h : x = y then isTrue (by rw [h]) else isFalse (by simp [h])

/-- `BTreeMap::insert` on a key-sorted association list: insert at the sorted
position, replacing the value when the key is already present. -/
def mapInsert {K : Type} [LinearOrder K] {A : Type} (k : K) (v : A) :
    List (K × A) → List (K × A)
  | [] => [(k, v)]
  | (k', v') :: t =>
    if k < k' then (k, v) :: (k', v') :: t
    else if k = k' then (k, v) :: t
    else (k', v') :: mapInsert k v t

/-- `BTreeMap::from_iter`: insert the entries in order, later keys overwrite
earlier ones. -/
def mapOfList {K : Type} [LinearOrder K] {A : Type} (l : List (K × A)) :
    List (K × A) :=
  l.foldl (fun m kv => mapInsert kv.1 kv.2 m) []

/-- `BTreeMap::remove`: the value stored at `k` (if any) together with the
map without that entry. -/
def mapRemove {K : Type} [LinearOrder K] {A : Type} (k : K) :
    List (K × A) → Option (A × List (K × A))
  | [] => none
  | (k', v') :: t =>
    if k = k' then some (v', t)
    else
      match mapRemove k t with
      | none => none
      | some (v, t') => some (v, (k', v') :: t')

/-- Aggregated responses of the different providers to one query
(`MultiCallResults<T>`): a `BTreeMap<RpcNodeProvider, Result<T, RpcError>>`,
embedded as its key-sorted entry list. -/
structure MultiCallResults (T : Type) where
  results : List (Provider × RpcResult T)
deriving DecidableEq, Repr

/-- Terminal outcome of a reduction (`MultiCallError<T>`). -/
inductive MultiCallError (T : Type) where
  | ConsistentError (e : RpcError)
  | InconsistentResults (r : MultiCallResults T)
deriving DecidableEq, Repr

/-- `MultiCallResults::from_non_empty_iter`: collect the entries into a
`BTreeMap` and panic (`none`) when the result is empty. -/
def MultiCallResults.fromNonEmptyIter {T : Type}
    (l : List (Provider × RpcResult T)) : Option (MultiCallResults T) :=
  let results := mapOfList l
  if results.isEmpty then none else some ⟨results⟩

/-- Loop body of `MultiCallResults::all_ok`, processing the entries in
provider-identity (key) order.  `okMap` accumulates the successful values
(`results.insert(provider, value)`), `firstError` is the held candidate
error slot.  On a new error that is judged inconsistent with the held one
(`are_errors_consistent(&error, &result)`), it returns immediately with
`InconsistentResults` of exactly the two conflicting entries; otherwise the
held candidate is re-stored unchanged.  The trailing match mirrors the final
`match first_error` of the source, including the normalisation of a held
`JsonRpcError` and the unreachable `Some((_, Ok(_)))` panic (`none`).
The consistency predicate is a parameter; see `allOk`. -/
def allOkLoop {T : Type} (consistent : RpcResult T → RpcResult T → Bool) :
    List (Provider × RpcResult T) → List (Provider × T) →
    Option (Provider × RpcResult T) →
    Option (Except (MultiCallError T) (List (Provider × T)))
  | [], okMap, firstError =>
    match firstError with
    | none => some (.ok okMap)
    | some (_, .error (RpcError.JsonRpcError ⟨code, message⟩)) =>
      some (.error (.ConsistentError (RpcError.JsonRpcError ⟨code, message⟩)))
    | some (_, .error e) => some (.error (.ConsistentError e))
    | some (_, .ok _) => none
  | (provider, result) :: rest, okMap, firstError =>
    match result with
    | .ok value => allOkLoop consistent rest (mapInsert provider value okMap) firstError
    | _ =>
      match firstError with
      | none => allOkLoop consistent rest okMap (some (provider, result))
      | some (firstErrorProvider, e) =>
        if ! consistent e result then
          match MultiCallResults.fromNonEmptyIter
              [(firstErrorProvider, e), (provider, result)] with
          | none => none
          | some mcr => some (.error (.InconsistentResults mcr))
        else
          allOkLoop consistent rest okMap (some (firstErrorProvider, e))

/-- `MultiCallResults::all_ok`.  The predicate `consistent` stands for
`are_errors_consistent` from `eth_rpc.rs`.  Modelled from the spec: the
source of `are_errors_consistent` is not part of the embedded tree; the
spec (sections 6 and 9) describes it as an externally supplied boolean
function `consistent(error, error) -> bool` whose exact semantics are an
open question, so it is kept as a parameter here (its call-site type in
`all_ok` compares two `Result<T, RpcError>` values). -/
def MultiCallResults.allOk {T : Type}
    (consistent : RpcResult T → RpcResult T → Bool) (self : MultiCallResults T) :
    Option (Except (MultiCallError T) (List (Provider × T))) :=
  allOkLoop consistent self.results [] none

/-- Loop of `EthRpcClient::sequential_call_until_ok` over the per-provider
transport results, taken in provider-list order.  `lastResult` is the
`last_result` slot; the final `none` on an empty provider list is the
`unwrap_or_else(panic)`. -/
def seqLoop {O : Type} :
    List (RpcResult O) → Option (RpcResult O) → Option (RpcResult O)
  | [], lastResult => lastResult
  | r :: rest, _lastResult =>
    match r with
    | .ok value => some (.ok value)
    | .error (RpcError.JsonRpcError jsonRpcError) =>
      seqLoop rest (some (.error (RpcError.JsonRpcError jsonRpcError)))
    | .error e => seqLoop rest (some (.error e))

/-- `EthRpcClient::sequential_call_until_ok`, abstracted over the transport:
`responses` lists, in provider-list order, the result `eth_rpc::call` would
return for each configured provider. -/
def sequentialCallUntilOk {O : Type} (responses : List (RpcResult O)) :
    Option (RpcResult O) :=
  seqLoop responses none

/-- Rust `Iterator::min_by_key` over a non-empty list: the first element
with the minimal extracted key (`none` on the empty list). -/
def listMinByKey {T K : Type} [LinearOrder K] (extractor : T → K) :
    List T → Option T
  | [] => none
  | x :: xs => some (xs.foldl (fun acc y => if extractor y < extractor acc then y else acc) x)

/-- `MultiCallResults::reduce_with_equality`. -/
def MultiCallResults.reduceWithEquality {T : Type} [DecidableEq T]
    (consistent : RpcResult T → RpcResult T → Bool) (self : MultiCallResults T) :
    Option (Except (MultiCallError T) T) :=
  match self.allOk consistent with
  | none => none
  | some (.error e) => some (.error e)
  | some (.ok allResults) =>
    match allResults with
    | [] => none
    | (baseNodeProvider, baseResult) :: rest =>
      let inconsistentResults := rest.filter fun pr => decide (pr.2 ≠ baseResult)
      if inconsistentResults.isEmpty then some (.ok baseResult)
      else
        match MultiCallResults.fromNonEmptyIter
            ((inconsistentResults ++ [(baseNodeProvider, baseResult)]).map
              fun pr => (pr.1, Except.ok pr.2)) with
        | none => none
        | some mcr => some (.error (.InconsistentResults mcr))

/-- `MultiCallResults::reduce_with_min_by_key`. -/
def MultiCallResults.reduceWithMinByKey {T K : Type} [LinearOrder K]
    (consistent : RpcResult T → RpcResult T → Bool) (extractor : T → K)
    (self : MultiCallResults T) : Option (Except (MultiCallError T) T) :=
  match self.allOk consistent with
  | none => none
  | some (.error e) => some (.error e)
  | some (.ok allResults) =>
    match listMinByKey extractor (allResults.map Prod.snd) with
    | none => none
    | some v => some (.ok v)

/-- Bucketing loop of `MultiCallResults::reduce_with_strict_majority_by_key`:
`votes` is `votes_by_key : BTreeMap<K, BTreeMap<RpcNodeProvider, T>>`.  A new
value whose key already has a bucket is compared with the bucket's
`last_key_value` entry; on inequality it returns immediately with
`InconsistentResults` of the bucket chained with the new entry. -/
def buildVotes {T K : Type} [LinearOrder K] [DecidableEq T] (extractor : T → K) :
    List (Provider × T) → List (K × List (Provider × T)) →
    Option (Except (MultiCallError T) (List (K × List (Provider × T))))
  | [], votes => some (.ok votes)
  | (provider, result) :: rest, votes =>
    let key := extractor result
    match mapRemove key votes with
    | some (votesForSameKey, votes') =>
      match votesForSameKey.getLast? with
      | none => none
      | some (_otherProvider, otherResult) =>
        if result ≠ otherResult then
          match MultiCallResults.fromNonEmptyIter
              ((votesForSameKey ++ [(provider, result)]).map
                fun pr => (pr.1, Except.ok pr.2)) with
          | none => none
          | some mcr => some (.error (.InconsistentResults mcr))
        else
          buildVotes extractor rest
            (mapInsert key (mapInsert provider result votesForSameKey) votes')
    | none => buildVotes extractor rest (mapInsert key [(provider, result)] votes)

/-- One insertion step of the tally sort (ascending bucket size). -/
def insertByLen {T K : Type} (x : K × List (Provider × T)) :
    List (K × List (Provider × T)) → List (K × List (Provider × T))
  | [] => [x]
  | y :: t => if x.2.length ≤ y.2.length then x :: y :: t else y :: insertByLen x t

/-- Model of `tally.sort_unstable_by(by ascending bucket cardinality)`: an
insertion sort by bucket size.  Rust's `sort_unstable_by` produces some
size-ordered permutation with unspecified relative order of equal-size
buckets; this deterministic sort is one such permutation. -/
def sortByLen {T K : Type} :
    List (K × List (Provider × T)) → List (K × List (Provider × T))
  | [] => []
  | x :: t => insertByLen x (sortByLen t)

/-- `MultiCallResults::reduce_with_strict_majority_by_key`.  After the
bucketing loop, `tally` is the vector of buckets sorted by ascending size;
`Vec::pop` takes from the end, so the match is written on `tally.reverse`:
its head is the first pop (largest bucket) and the next element the second
pop.  `ballot.pop_last()` yields the bucket entry with the largest provider
key; its value is returned.  Empty-tally and empty-ballot `expect`s are the
`none` cases. -/
def MultiCallResults.reduceWithStrictMajorityByKey {T K : Type} [LinearOrder K]
    [DecidableEq T] (consistent : RpcResult T → RpcResult T → Bool)
    (extractor : T → K) (self : MultiCallResults T) :
    Option (Except (MultiCallError T) T) :=
  match self.allOk consistent with
  | none => none
  | some (.error e) => some (.error e)
  | some (.ok allResults) =>
    match buildVotes extractor allResults [] with
    | none => none
    | some (.error e) => some (.error e)
    | some (.ok votes) =>
      let tally := sortByLen votes
      match tally.reverse with
      | [] => none
      | [(_key, ballot)] =>
        match ballot.getLast? with
        | none => none
        | some pv => some (.ok pv.2)
      | (_k1, ballot1) :: (_k2, ballot2) :: _ =>
        if ballot1.length > ballot2.length then
          match ballot1.getLast? with
          | none => none
          | some pv => some (.ok pv.2)
        else
          match MultiCallResults.fromNonEmptyIter
              ((ballot1 ++ ballot2).map fun pr => (pr.1, Except.ok pr.2)) with
          | none => none
          | some mcr => some (.error (.InconsistentResults mcr))

/-- Keys of an association list are strictly increasing: the representation
invariant of the `BTreeMap` embedding. -/
def keysSorted {K A : Type} [LT K] (l : List (K × A)) : Prop :=
  l.Pairwise fun a b => a.1 < b.1

/- Helper lemmas about the `BTreeMap` model. -/

theorem mapInsert_ne_nil {K : Type} [LinearOrder K] {A : Type} (k : K) (v : A)
    (m : List (K × A)) : mapInsert k v m ≠ [] := by
  cases m with
  | nil => simp [mapInsert]
  | cons hd tl =>
    simp only [mapInsert]
    split
    · simp
    · split <;> simp

theorem mem_mapInsert {K : Type} [LinearOrder K] {A : Type} {k : K} {v : A}
    {m : List (K × A)} {x : K × A} (hx : x ∈ mapInsert k v m) :
    x = (k, v) ∨ x ∈ m := by
  induction m with
  | nil => simpa [mapInsert] using hx
  | cons hd tl ih =>
    simp only [mapInsert] at hx
    split at hx
    · simpa using hx
    · split at hx
      · rcases List.mem_cons.mp hx with h | h
        · exact Or.inl h
        · exact Or.inr (List.mem_cons_of_mem _ h)
      · rcases List.mem_cons.mp hx with h | h
        · exact Or.inr (h ▸ List.mem_cons_self _ _)
        · rcases ih h with h' | h'
          · exact Or.inl h'
          · exact Or.inr (List.mem_cons_of_mem _ h')

theorem mapInsert_append {K : Type} [LinearOrder K] {A : Type} {k : K} {v : A}
    {m : List (K × A)} (h : ∀ y ∈ m, y.1 < k) :
    mapInsert k v m = m ++ [(k, v)] := by
  induction m with
  | nil => rfl
  | cons hd tl ih =>
    have hhd : hd.1 < k := h hd (List.mem_cons_self _ _)
    simp only [mapInsert, if_neg (asymm hhd), if_neg (ne_of_gt hhd)]
    simp [ih fun y hy => h y (List.mem_cons_of_mem _ hy)]

theorem mapInsert_sorted {K : Type} [LinearOrder K] {A : Type} {k : K} {v : A}
    {m : List (K × A)} (h : keysSorted m) : keysSorted (mapInsert k v m) := by
  induction m with
  | nil => simp [mapInsert, keysSorted]
  | cons hd tl ih =>
    rcases List.pairwise_cons.mp h with ⟨hhd, htl⟩
    by_cases hlt : k < hd.1
    · have hins : mapInsert k v (hd :: tl) = (k, v) :: hd :: tl := by
        simp [mapInsert, hlt]
      rw [keysSorted, hins]
      refine List.pairwise_cons.mpr ⟨?_, h⟩
      intro y hy
      rcases List.mem_cons.mp hy with rfl | hy
      · exact hlt
      · exact hlt.trans (hhd y hy)
    · by_cases heq : k = hd.1
      · have hins : mapInsert k v (hd :: tl) = (k, v) :: tl := by
          simp [mapInsert, hlt, heq]
        rw [keysSorted, hins]
        exact List.pairwise_cons.mpr ⟨fun y hy => heq ▸ hhd y hy, htl⟩
      · have hins : mapInsert k v (hd :: tl) = hd :: mapInsert k v tl := by
          simp [mapInsert, hlt, heq]
        rw [keysSorted, hins]
        refine List.pairwise_cons.mpr ⟨?_, ih htl⟩
        intro y hy
        rcases mem_mapInsert hy with rfl | hy
        · exact lt_of_le_of_ne (not_lt.mp hlt) (Ne.symm heq)
        · exact hhd y hy

theorem mapRemove_mem {K : Type} [LinearOrder K] {A : Type} {k : K}
    {m m' : List (K × A)} {b : A} (h : mapRemove k m = some (b, m')) :
    (k, b) ∈ m := by
  induction m generalizing m' with
  | nil => simp [mapRemove] at h
  | cons hd tl ih =>
    simp only [mapRemove] at h
    split at h
    · rename_i heq
      simp only [Option.some.injEq, Prod.mk.injEq] at h
      obtain ⟨rfl, rfl⟩ := h
      subst heq
      simp
    · cases hrec : mapRemove k tl with
      | none => rw [hrec] at h; cases h
      | some vt =>
        obtain ⟨v, t'⟩ := vt
        rw [hrec] at h
        simp only [Option.some.injEq, Prod.mk.injEq] at h
        obtain ⟨rfl, rfl⟩ := h
        exact List.mem_cons_of_mem _ (ih hrec)

theorem mapRemove_sublist {K : Type} [LinearOrder K] {A : Type} {k : K}
    {m m' : List (K × A)} {b : A} (h : mapRemove k m = some (b, m')) :
    m'.Sublist m := by
  induction m generalizing m' with
  | nil => simp [mapRemove] at h
  | cons hd tl ih =>
    simp only [mapRemove] at h
    split at h
    · simp only [Option.some.injEq, Prod.mk.injEq] at h
      obtain ⟨rfl, rfl⟩ := h
      exact List.sublist_cons_self _ _
    · cases hrec : mapRemove k tl with
      | none => rw [hrec] at h; cases h
      | some vt =>
        obtain ⟨v, t'⟩ := vt
        rw [hrec] at h
        simp only [Option.some.injEq, Prod.mk.injEq] at h
        obtain ⟨rfl, rfl⟩ := h
        exact (ih hrec).cons₂ hd

theorem foldl_mapInsert_ne_nil {K : Type} [LinearOrder K] {A : Type}
    (l : List (K × A)) (m : List (K × A)) (hm : m ≠ []) :
    l.foldl (fun m kv => mapInsert kv.1 kv.2 m) m ≠ [] := by
  induction l generalizing m with
  | nil => exact hm
  | cons hd tl ih => exact ih _ (mapInsert_ne_nil _ _ _)

theorem mapOfList_ne_nil {K : Type} [LinearOrder K] {A : Type}
    {l : List (K × A)} (h : l ≠ []) : mapOfList l ≠ [] := by
  cases l with
  | nil => exact absurd rfl h
  | cons hd tl =>
    exact foldl_mapInsert_ne_nil tl _ (mapInsert_ne_nil _ _ _)

theorem mapInsert_perm {K : Type} [LinearOrder K] {A : Type} {k : K} {v : A}
    {m : List (K × A)} (h : ∀ x ∈ m, x.1 ≠ k) :
    (mapInsert k v m).Perm ((k, v) :: m) := by
  induction m with
  | nil => exact List.Perm.refl _
  | cons hd tl ih =>
    simp only [mapInsert]
    split
    · exact List.Perm.refl _
    · split
      · rename_i hlt heq
        exact absurd heq.symm (h hd (List.mem_cons_self _ _))
      · exact ((ih fun x hx => h x (List.mem_cons_of_mem _ hx)).cons hd).trans
          (List.Perm.swap (k, v) hd tl)

theorem foldl_mapInsert_perm {K : Type} [LinearOrder K] {A : Type}
    (l : List (K × A)) :
    ∀ (m : List (K × A)), l.Pairwise (fun a b => a.1 ≠ b.1) →
      (∀ y ∈ l, ∀ x ∈ m, y.1 ≠ x.1) →
      (l.foldl (fun m kv => mapInsert kv.1 kv.2 m) m).Perm (m ++ l) := by
  induction l with
  | nil => intro m _ _; simp
  | cons a t ih =>
    intro m hp hc
    rcases List.pairwise_cons.mp hp with ⟨ha, ht⟩
    simp only [List.foldl_cons]
    have h1 : ∀ x ∈ m, x.1 ≠ a.1 :=
      fun x hx => (hc a (List.mem_cons_self _ _) x hx).symm
    have hins : (mapInsert a.1 a.2 m).Perm (a :: m) := mapInsert_perm h1
    have hc' : ∀ y ∈ t, ∀ x ∈ mapInsert a.1 a.2 m, y.1 ≠ x.1 := by
      intro y hy x hx
      rcases mem_mapInsert hx with rfl | hx'
      · exact (ha y hy).symm
      · exact hc y (List.mem_cons_of_mem _ hy) x hx'
    refine (ih (mapInsert a.1 a.2 m) ht hc').trans ?_
    refine (hins.append_right t).trans ?_
    exact (List.perm_middle).symm

theorem mapOfList_perm {K : Type} [LinearOrder K] {A : Type}
    {l : List (K × A)} (h : l.Pairwise fun a b => a.1 ≠ b.1) :
    (mapOfList l).Perm l := by
  have hfold := foldl_mapInsert_perm l [] h (by simp)
  simpa [mapOfList] using hfold

/- Step lemmas for the `all_ok` loop. -/

theorem allOkLoop_ok_step {T : Type} (c : RpcResult T → RpcResult T → Bool)
    (p : Provider) (v : T) (rest : List (Provider × RpcResult T))
    (okMap : List (Provider × T)) (fe : Option (Provider × RpcResult T)) :
    allOkLoop c ((p, Except.ok v) :: rest) okMap fe
      = allOkLoop c rest (mapInsert p v okMap) fe := rfl

theorem allOkLoop_error_none_step {T : Type} (c : RpcResult T → RpcResult T → Bool)
    (p : Provider) (e : RpcError) (rest : List (Provider × RpcResult T))
    (okMap : List (Provider × T)) :
    allOkLoop c ((p, Except.error e) :: rest) okMap none
      = allOkLoop c rest okMap (some (p, Except.error e)) := rfl

theorem allOkLoop_error_some_step {T : Type} (c : RpcResult T → RpcResult T → Bool)
    (p : Provider) (er : RpcError) (rest : List (Provider × RpcResult T))
    (okMap : List (Provider × T)) (q : Provider) (fr : RpcResult T) :
    allOkLoop c ((p, Except.error er) :: rest) okMap (some (q, fr))
      = if c fr (Except.error er) then allOkLoop c rest okMap (some (q, fr))
        else
          match MultiCallResults.fromNonEmptyIter [(q, fr), (p, Except.error er)] with
          | none => none
          | some mcr => some (.error (.InconsistentResults mcr)) := by
  cases hc : c fr (Except.error er) <;> simp [allOkLoop, hc]

theorem allOkLoop_held {T : Type} (c : RpcResult T → RpcResult T → Bool)
    (rest : List (Provider × RpcResult T)) (okMap : List (Provider × T))
    (p : Provider) (e : RpcError)
    (h : ∀ x ∈ rest, (∃ v, x.2 = Except.ok v) ∨ c (Except.error e) x.2 = true) :
    allOkLoop c rest okMap (some (p, Except.error e))
      = some (.error (.ConsistentError e)) := by
  induction rest generalizing okMap with
  | nil =>
    cases e with
    | JsonRpcError je => cases je; rfl
    | HttpOutcallError e => rfl
    | ProviderError e => rfl
  | cons hd tl ih =>
    obtain ⟨q, r⟩ := hd
    cases r with
    | ok v =>
      rw [allOkLoop_ok_step]
      exact ih _ fun x hx => h x (List.mem_cons_of_mem _ hx)
    | error er =>
      have hc : c (Except.error e) (Except.error er) = true := by
        rcases h _ (List.mem_cons_self _ _) with ⟨v, hv⟩ | hc
        · exact absurd hv (by simp)
        · exact hc
      rw [allOkLoop_error_some_step, if_pos hc]
      exact ih _ fun x hx => h x (List.mem_cons_of_mem _ hx)

theorem allOkLoop_okAll_lead {T : Type} (c : RpcResult T → RpcResult T → Bool)
    (pre rest : List (Provider × RpcResult T)) (okMap : List (Provider × T))
    (fe : Option (Provider × RpcResult T))
    (h : ∀ x ∈ pre, ∃ v, x.2 = Except.ok v) :
    ∃ okMap', allOkLoop c (pre ++ rest) okMap fe = allOkLoop c rest okMap' fe := by
  induction pre generalizing okMap with
  | nil => exact ⟨okMap, rfl⟩
  | cons hd tl ih =>
    obtain ⟨q, r⟩ := hd
    obtain ⟨v, hv⟩ := h _ (List.mem_cons_self _ _)
    simp only at hv
    subst hv
    rw [List.cons_append, allOkLoop_ok_step]
    exact ih _ fun x hx => h x (List.mem_cons_of_mem _ hx)

theorem allOkLoop_allOkEntries {T : Type} (c : RpcResult T → RpcResult T → Bool)
    (entries : List (Provider × T)) (okMap : List (Provider × T))
    (hlt : ∀ x ∈ okMap, ∀ y ∈ entries, x.1 < y.1) (hs : keysSorted entries) :
    allOkLoop c (entries.map fun pv => (pv.1, Except.ok pv.2)) okMap none
      = some (.ok (okMap ++ entries)) := by
  induction entries generalizing okMap with
  | nil => simp [allOkLoop]
  | cons hd tl ih =>
    obtain ⟨p, v⟩ := hd
    rw [List.map_cons, allOkLoop_ok_step]
    have hins : mapInsert p v okMap = okMap ++ [(p, v)] :=
      mapInsert_append fun y hy => hlt y hy _ (List.mem_cons_self _ _)
    rcases List.pairwise_cons.mp hs with ⟨hhd, htl⟩
    rw [hins, ih (okMap ++ [(p, v)]) ?_ htl]
    · simp
    · intro x hx y hy
      rcases List.mem_append.mp hx with hx' | hx'
      · exact hlt x hx' y (List.mem_cons_of_mem _ hy)
      · rcases List.mem_singleton.mp hx' with rfl
        exact hhd y hy

theorem allOkLoop_ok_mem {T : Type} {c : RpcResult T → RpcResult T → Bool}
    {entries : List (Provider × RpcResult T)} {okMap res : List (Provider × T)}
    {fe : Option (Provider × RpcResult T)}
    (h : allOkLoop c entries okMap fe = some (.ok res)) :
    ∀ x ∈ res, x ∈ okMap ∨ (x.1, Except.ok x.2) ∈ entries := by
  induction entries generalizing okMap fe with
  | nil =>
    cases fe with
    | none =>
      simp only [allOkLoop, Option.some.injEq, Except.ok.injEq] at h
      subst h
      exact fun x hx => Or.inl hx
    | some pe =>
      obtain ⟨q, r⟩ := pe
      cases r with
      | ok v => simp [allOkLoop] at h
      | error er =>
        cases er with
        | JsonRpcError je => cases je; simp [allOkLoop] at h
        | HttpOutcallError e => simp [allOkLoop] at h
        | ProviderError e => simp [allOkLoop] at h
  | cons hd tl ih =>
    obtain ⟨q, r⟩ := hd
    cases r with
    | ok v =>
      rw [allOkLoop_ok_step] at h
      intro x hx
      rcases ih h x hx with hx' | hx'
      · rcases mem_mapInsert hx' with rfl | hx''
        · exact Or.inr (by simp)
        · exact Or.inl hx''
      · exact Or.inr (List.mem_cons_of_mem _ hx')
    | error er =>
      cases fe with
      | none =>
        rw [allOkLoop_error_none_step] at h
        intro x hx
        rcases ih h x hx with hx' | hx'
        · exact Or.inl hx'
        · exact Or.inr (List.mem_cons_of_mem _ hx')
      | some pe =>
        obtain ⟨qp, rp⟩ := pe
        rw [allOkLoop_error_some_step] at h
        by_cases hc : c rp (Except.error er) = true
        · rw [if_pos hc] at h
          intro x hx
          rcases ih h x hx with hx' | hx'
          · exact Or.inl hx'
          · exact Or.inr (List.mem_cons_of_mem _ hx')
        · rw [if_neg hc] at h
          cases hf : MultiCallResults.fromNonEmptyIter
              [(qp, rp), (q, Except.error er)] with
          | none => rw [hf] at h; cases h
          | some mcr => rw [hf] at h; simp at h

theorem allOk_ok_mem {T : Type} {c : RpcResult T → RpcResult T → Bool}
    {m : MultiCallResults T} {res : List (Provider × T)}
    (h : m.allOk c = some (.ok res)) :
    ∀ x ∈ res, (x.1, Except.ok x.2) ∈ m.results := by
  intro x hx
  rcases allOkLoop_ok_mem h x hx with hx' | hx'
  · simp at hx'
  · exact hx'

/- Lemmas about `min_by_key`. -/

theorem foldlMin_mem {T K : Type} [LinearOrder K] (f : T → K) (xs : List T) (x : T) :
    xs.foldl (fun acc y => if f y < f acc then y else acc) x ∈ x :: xs := by
  induction xs generalizing x with
  | nil => simp
  | cons hd tl ih =>
    simp only [List.foldl_cons]
    by_cases hlt : f hd < f x
    · rw [if_pos hlt]
      exact List.mem_cons_of_mem _ (ih hd)
    · rw [if_neg hlt]
      rcases List.mem_cons.mp (ih x) with h | h
      · rw [h]; exact List.mem_cons_self _ _
      · exact List.mem_cons_of_mem _ (List.mem_cons_of_mem _ h)

theorem foldlMin_le {T K : Type} [LinearOrder K] (f : T → K) (xs : List T) (x : T) :
    ∀ y ∈ x :: xs, f (xs.foldl (fun acc y => if f y < f acc then y else acc) x) ≤ f y := by
  induction xs generalizing x with
  | nil => simp
  | cons hd tl ih =>
    have hle : f (if f hd < f x then hd else x) ≤ f x ∧
        f (if f hd < f x then hd else x) ≤ f hd := by
      by_cases hlt : f hd < f x
      · rw [if_pos hlt]; exact ⟨le_of_lt hlt, le_refl _⟩
      · rw [if_neg hlt]; exact ⟨le_refl _, not_lt.mp hlt⟩
    intro y hy
    simp only [List.foldl_cons]
    have hhead : f (tl.foldl (fun acc y => if f y < f acc then y else acc)
        (if f hd < f x then hd else x)) ≤ f (if f hd < f x then hd else x) :=
      ih _ _ (List.mem_cons_self _ _)
    rcases List.mem_cons.mp hy with rfl | hy'
    · exact hhead.trans hle.1
    · rcases List.mem_cons.mp hy' with rfl | hy''
      · exact hhead.trans hle.2
      · exact ih _ _ (List.mem_cons_of_mem _ hy'')

theorem listMinByKey_spec {T K : Type} [LinearOrder K] (f : T → K) (x : T)
    (xs : List T) :
    ∃ v, listMinByKey f (x :: xs) = some v ∧ v ∈ x :: xs ∧
      ∀ w ∈ x :: xs, f v ≤ f w :=
  ⟨_, rfl, foldlMin_mem f xs x, foldlMin_le f xs x⟩

theorem listMinByKey_mem {T K : Type} [LinearOrder K] {f : T → K} {l : List T}
    {v : T} (h : listMinByKey f l = some v) : v ∈ l := by
  cases l with
  | nil => cases h
  | cons x xs =>
    simp only [listMinByKey, Option.some.injEq] at h
    exact h ▸ foldlMin_mem f xs x

theorem keysSorted_unique {K A : Type} [LinearOrder K] {l : List (K × A)}
    (h : keysSorted l) {k : K} {a b : A} (ha : (k, a) ∈ l) (hb : (k, b) ∈ l) :
    a = b := by
  induction l with
  | nil => cases ha
  | cons hd tl ih =>
    rcases List.pairwise_cons.mp h with ⟨hhd, htl⟩
    rcases List.mem_cons.mp ha with ha' | ha'
    · rcases List.mem_cons.mp hb with hb' | hb'
      · rw [← ha'] at hb'
        exact (Prod.ext_iff.mp hb').2.symm
      · have h1 : hd.1 < k := hhd _ hb'
        rw [← ha'] at h1
        exact absurd h1 (lt_irrefl k)
    · rcases List.mem_cons.mp hb with hb' | hb'
      · have h1 : hd.1 < k := hhd _ ha'
        rw [← hb'] at h1
        exact absurd h1 (lt_irrefl k)
      · exact ih htl ha' hb'

/- Lemmas about the tally sort. -/

theorem mem_insertByLen {T K : Type} {x : K × List (Provider × T)}
    {l : List (K × List (Provider × T))} {y : K × List (Provider × T)}
    (h : y ∈ insertByLen x l) : y = x ∨ y ∈ l := by
  induction l with
  | nil => simpa [insertByLen] using h
  | cons hd tl ih =>
    simp only [insertByLen] at h
    split at h
    · rcases List.mem_cons.mp h with h' | h'
      · exact Or.inl h'
      · exact Or.inr h'
    · rcases List.mem_cons.mp h with h' | h'
      · exact Or.inr (h' ▸ List.mem_cons_self _ _)
      · rcases ih h' with h'' | h''
        · exact Or.inl h''
        · exact Or.inr (List.mem_cons_of_mem _ h'')

theorem insertByLen_perm {T K : Type} (x : K × List (Provider × T))
    (l : List (K × List (Provider × T))) : (insertByLen x l).Perm (x :: l) := by
  induction l with
  | nil => exact List.Perm.refl _
  | cons hd tl ih =>
    simp only [insertByLen]
    split
    · exact List.Perm.refl _
    · exact (ih.cons hd).trans (List.Perm.swap x hd tl)

theorem sortByLen_perm {T K : Type} (l : List (K × List (Provider × T))) :
    (sortByLen l).Perm l := by
  induction l with
  | nil => exact List.Perm.refl _
  | cons hd tl ih => exact (insertByLen_perm hd (sortByLen tl)).trans (ih.cons hd)

theorem insertByLen_sorted {T K : Type} (x : K × List (Provider × T))
    {l : List (K × List (Provider × T))}
    (h : l.Pairwise fun a b => a.2.length ≤ b.2.length) :
    (insertByLen x l).Pairwise fun a b => a.2.length ≤ b.2.length := by
  induction l with
  | nil => simp [insertByLen]
  | cons hd tl ih =>
    rcases List.pairwise_cons.mp h with ⟨hhd, htl⟩
    simp only [insertByLen]
    split
    · rename_i hle
      refine List.pairwise_cons.mpr ⟨?_, h⟩
      intro y hy
      rcases List.mem_cons.mp hy with rfl | hy'
      · exact hle
      · exact hle.trans (hhd y hy')
    · rename_i hgt
      refine List.pairwise_cons.mpr ⟨?_, ih htl⟩
      intro y hy
      rcases mem_insertByLen hy with rfl | hy'
      · exact le_of_lt (not_le.mp hgt)
      · exact hhd y hy'

theorem sortByLen_sorted {T K : Type} (l : List (K × List (Provider × T))) :
    (sortByLen l).Pairwise fun a b => a.2.length ≤ b.2.length := by
  induction l with
  | nil => simp [sortByLen]
  | cons hd tl ih => exact insertByLen_sorted hd ih

/- Lemmas about the bucketing loop. -/

theorem buildVotes_from {T K : Type} [LinearOrder K] [DecidableEq T]
    {extractor : T → K} {entries : List (Provider × T)}
    {votes votes' : List (K × List (Provider × T))} {S : List (Provider × T)}
    (hv : ∀ kb ∈ votes, ∀ pr ∈ kb.2, pr ∈ S)
    (he : ∀ pr ∈ entries, pr ∈ S)
    (h : buildVotes extractor entries votes = some (.ok votes')) :
    ∀ kb ∈ votes', ∀ pr ∈ kb.2, pr ∈ S := by
  induction entries generalizing votes with
  | nil =>
    simp only [buildVotes, Option.some.injEq, Except.ok.injEq] at h
    subst h
    exact hv
  | cons hd tl ih =>
    obtain ⟨p, t⟩ := hd
    simp only [buildVotes] at h
    split at h
    · rename_i bucket votes₂ hrem
      split at h
      · cases h
      · rename_i q w hlast
        split at h
        · split at h
          · cases h
          · simp at h
        · rename_i hne
          refine ih ?_ (fun pr hpr => he pr (List.mem_cons_of_mem _ hpr)) h
          intro kb hkb pr hpr
          rcases mem_mapInsert hkb with rfl | hkb'
          · rcases mem_mapInsert hpr with rfl | hpr'
            · exact he _ (List.mem_cons_self _ _)
            · exact hv _ (mapRemove_mem hrem) pr hpr'
          · exact hv kb ((mapRemove_sublist hrem).subset hkb') pr hpr
    · refine ih ?_ (fun pr hpr => he pr (List.mem_cons_of_mem _ hpr)) h
      intro kb hkb pr hpr
      rcases mem_mapInsert hkb with rfl | hkb'
      · simp only [List.mem_singleton] at hpr
        exact hpr ▸ he _ (List.mem_cons_self _ _)
      · exact hv kb hkb' pr hpr

theorem buildVotes_sorted {T K : Type} [LinearOrder K] [DecidableEq T]
    {extractor : T → K} {entries : List (Provider × T)}
    {votes votes' : List (K × List (Provider × T))}
    (hv : keysSorted votes)
    (h : buildVotes extractor entries votes = some (.ok votes')) :
    keysSorted votes' := by
  induction entries generalizing votes with
  | nil =>
    simp only [buildVotes, Option.some.injEq, Except.ok.injEq] at h
    subst h
    exact hv
  | cons hd tl ih =>
    obtain ⟨p, t⟩ := hd
    simp only [buildVotes] at h
    split at h
    · rename_i bucket votes₂ hrem
      split at h
      · cases h
      · rename_i q w hlast
        split at h
        · split at h
          · cases h
          · simp at h
        · exact ih (mapInsert_sorted (List.Pairwise.sublist (mapRemove_sublist hrem) hv)) h
    · exact ih (mapInsert_sorted hv) h

theorem buildVotes_conflict {T K : Type} [LinearOrder K] [DecidableEq T]
    (extractor : T → K) (p : Provider) (v : T) (rest : List (Provider × T))
    (votes votes₂ : List (K × List (Provider × T)))
    (bucket : List (Provider × T)) (q : Provider) (w : T)
    (hrem : mapRemove (extractor v) votes = some (bucket, votes₂))
    (hlast : bucket.getLast? = some (q, w)) (hne : v ≠ w) :
    buildVotes extractor ((p, v) :: rest) votes
      = some (.error (.InconsistentResults
          ⟨mapOfList ((bucket ++ [(p, v)]).map fun pr => (pr.1, Except.ok pr.2))⟩)) := by
  have hnil : (bucket ++ [(p, v)]).map
      (fun pr => (pr.1, (Except.ok pr.2 : RpcResult T))) ≠ [] := by
    simp
  have hne' := mapOfList_ne_nil hnil
  simp only [buildVotes, hrem, hlast, if_pos hne, MultiCallResults.fromNonEmptyIter]
  rw [if_neg (by simpa [List.isEmpty_iff] using hne')]

/- Lemmas about the sequential-call loop. -/

theorem seqLoop_ok_step {O : Type} (v : O) (rest : List (RpcResult O))
    (acc : Option (RpcResult O)) :
    seqLoop (Except.ok v :: rest) acc = some (Except.ok v) := rfl

theorem seqLoop_error_step {O : Type} (er : RpcError) (rest : List (RpcResult O))
    (acc : Option (RpcResult O)) :
    seqLoop (Except.error er :: rest) acc = seqLoop rest (some (Except.error er)) := by
  cases er with
  | JsonRpcError je => rfl
  | HttpOutcallError e => rfl
  | ProviderError e => rfl

theorem seqLoop_firstOk {O : Type} (pre post : List (RpcResult O)) (v : O)
    (hpre : ∀ r ∈ pre, ∃ er, r = Except.error er) :
    ∀ acc, seqLoop (pre ++ Except.ok v :: post) acc = some (Except.ok v) := by
  induction pre with
  | nil => intro acc; exact seqLoop_ok_step v post acc
  | cons r t ih =>
    obtain ⟨er, rfl⟩ := hpre r (List.mem_cons_self _ _)
    intro acc
    rw [List.cons_append, seqLoop_error_step]
    exact ih (fun x hx => hpre x (List.mem_cons_of_mem _ hx)) _

theorem seqLoop_allErrors {O : Type} (responses : List (RpcResult O)) (e : RpcError)
    (herr : ∀ r ∈ responses, ∃ er, r = Except.error er)
    (hlast : responses.getLast? = some (Except.error e)) :
    ∀ acc, seqLoop responses acc = some (Except.error e) := by
  induction responses with
  | nil => cases hlast
  | cons r rest ih =>
    obtain ⟨er, rfl⟩ := herr r (List.mem_cons_self _ _)
    intro acc
    rw [seqLoop_error_step]
    cases rest with
    | nil =>
      simp only [List.getLast?_singleton, Option.some.injEq] at hlast
      rw [hlast]
      rfl
    | cons r' rest' =>
      rw [List.getLast?_cons_cons] at hlast
      exact ih (fun x hx => herr x (List.mem_cons_of_mem _ hx)) hlast _

/- Claim theorems. -/

/-- C1, counterexample: with a consistency predicate that judges every pair
consistent, `all_ok` over providers 0 and 1 holding the distinct errors
`ProviderError 0` and `ProviderError 1` returns `ConsistentError` wrapping
the FIRST error, not the last error seen in provider-identity order: the new
error does not replace the held candidate. -/
theorem allOk_wraps_first_not_last :
    MultiCallResults.allOk (T := Nat) (fun _ _ => true)
        ⟨[(0, Except.error (RpcError.ProviderError 0)),
          (1, Except.error (RpcError.ProviderError 1))]⟩
      = some (.error (.ConsistentError (RpcError.ProviderError 0))) ∧
    MultiCallResults.allOk (T := Nat) (fun _ _ => true)
        ⟨[(0, Except.error (RpcError.ProviderError 0)),
          (1, Except.error (RpcError.ProviderError 1))]⟩
      ≠ some (.error (.ConsistentError (RpcError.ProviderError 1))) := by
  exact ⟨rfl, by decide⟩

/-- C1, amended: in `all_ok` the held candidate error is never replaced: the
first error seen in provider-identity order stays in the slot, every later
error is tested against that first error, and when each later entry is `Ok`
or judged consistent with the first error, the error wrapped in
`ConsistentError` is the first error seen. -/
theorem allOk_consistent_wraps_first_error {T : Type}
    (consistent : RpcResult T → RpcResult T → Bool) (m : MultiCallResults T)
    (pre post : List (Provider × RpcResult T)) (p : Provider) (e : RpcError)
    (hm : m.results = pre ++ (p, Except.error e) :: post)
    (hpre : ∀ x ∈ pre, ∃ v, x.2 = Except.ok v)
    (hpost : ∀ x ∈ post, (∃ v, x.2 = Except.ok v) ∨
      consistent (Except.error e) x.2 = true) :
    m.allOk consistent = some (.error (.ConsistentError e)) := by
  rw [MultiCallResults.allOk, hm]
  obtain ⟨okMap', heq⟩ := allOkLoop_okAll_lead consistent pre _ [] none hpre
  rw [heq, allOkLoop_error_none_step]
  exact allOkLoop_held consistent post okMap' p e hpost

/-- C1, witness for the amended theorem: providers `[Ok 5, HttpOutcallError 2,
HttpOutcallError 2]` with an equality-based consistency predicate yield
`ConsistentError (HttpOutcallError 2)`, the first (and here only) error kind. -/
theorem allOk_consistent_wraps_first_error_witness :
    MultiCallResults.allOk (T := Nat) (fun a b => decide (a = b))
        ⟨[(0, Except.ok 5), (1, Except.error (RpcError.HttpOutcallError 2)),
          (2, Except.error (RpcError.HttpOutcallError 2))]⟩
      = some (.error (.ConsistentError (RpcError.HttpOutcallError 2))) := by
  apply allOk_consistent_wraps_first_error (fun a b => decide (a = b)) _
    [(0, Except.ok 5)] [(2, Except.error (RpcError.HttpOutcallError 2))] 1
    (RpcError.HttpOutcallError 2) rfl
  · intro x hx
    rcases List.mem_singleton.mp hx with rfl
    exact ⟨5, rfl⟩
  · intro x hx
    rcases List.mem_singleton.mp hx with rfl
    exact Or.inr (by decide)

/-- C6: `sequential_call_until_ok` walks the providers in list order: the
first `Ok` is returned unchanged, whatever the transport would answer for
the later providers (they are never contacted), and when every provider
fails the error of the last provider is returned, whatever the variants of
the earlier errors. -/
theorem sequentialCallUntilOk_spec {O : Type} :
    (∀ (pre post : List (RpcResult O)) (v : O),
      (∀ r ∈ pre, ∃ er, r = Except.error er) →
      sequentialCallUntilOk (pre ++ Except.ok v :: post) = some (Except.ok v)) ∧
    (∀ (responses : List (RpcResult O)) (e : RpcError),
      (∀ r ∈ responses, ∃ er, r = Except.error er) →
      responses.getLast? = some (Except.error e) →
      sequentialCallUntilOk responses = some (Except.error e)) := by
  constructor
  · intro pre post v hpre
    rw [sequentialCallUntilOk]
    exact seqLoop_firstOk pre post v hpre none
  · intro responses e herr hlast
    exact seqLoop_allErrors responses e herr hlast none

/-- C6, witness: over `[JsonRpcError, Ok 7, ProviderError]` the value 7 is
returned; over `[HttpOutcallError 3, JsonRpcError 1 a]` the second (last)
error is returned. -/
theorem sequentialCallUntilOk_spec_witness :
    sequentialCallUntilOk (O := Nat)
        [Except.error (RpcError.JsonRpcError ⟨1, "a"⟩), Except.ok 7,
         Except.error (RpcError.ProviderError 9)] = some (Except.ok 7) ∧
    sequentialCallUntilOk (O := Nat)
        [Except.error (RpcError.HttpOutcallError 3),
         Except.error (RpcError.JsonRpcError ⟨1, "a"⟩)]
      = some (Except.error (RpcError.JsonRpcError ⟨1, "a"⟩)) := by
  constructor
  · exact (sequentialCallUntilOk_spec (O := Nat)).1
      [Except.error (RpcError.JsonRpcError ⟨1, "a"⟩)]
      [Except.error (RpcError.ProviderError 9)] 7
      (by intro r hr; rcases List.mem_singleton.mp hr with rfl; exact ⟨_, rfl⟩)
  · exact (sequentialCallUntilOk_spec (O := Nat)).2 _ _
      (by
        intro r hr
        rcases List.mem_cons.mp hr with rfl | hr'
        · exact ⟨_, rfl⟩
        · rcases List.mem_singleton.mp hr' with rfl
          exact ⟨_, rfl⟩)
      rfl

/-- C7: constructing a `MultiCallResults` from zero entries is a panic
(modelled `none`), never a returned error value, while any non-empty entry
list yields a value; `sequential_call_until_ok` over an empty provider list
likewise panics instead of returning an error. -/
theorem emptyAggregate_panics :
    MultiCallResults.fromNonEmptyIter (T := Nat) [] = none ∧
    sequentialCallUntilOk (O := Nat) [] = none ∧
    ∀ (p : Provider) (r : RpcResult Nat) (l : List (Provider × RpcResult Nat)),
      ∃ mcr, MultiCallResults.fromNonEmptyIter ((p, r) :: l) = some mcr := by
  refine ⟨rfl, rfl, ?_⟩
  intro p r l
  refine ⟨⟨mapOfList ((p, r) :: l)⟩, ?_⟩
  rw [MultiCallResults.fromNonEmptyIter]
  rw [if_neg (by
    simp only [List.isEmpty_iff]
    exact mapOfList_ne_nil (List.cons_ne_nil _ _))]

/-- C8: when every provider holds the same error `e` and the consistency
predicate judges `e` consistent with itself, `all_ok` returns
`ConsistentError e` — a held `JsonRpcError{code, message}` is rebuilt
(normalised) as the same `JsonRpcError`, a non-JsonRpc error is wrapped
unchanged — and each of the three reductions propagates that
`ConsistentError` verbatim. -/
theorem allOk_same_error_consistent {T K : Type} [DecidableEq T] [LinearOrder K]
    (consistent : RpcResult T → RpcResult T → Bool) (extractor : T → K)
    (m : MultiCallResults T) (e : RpcError)
    (hne : m.results ≠ [])
    (hall : ∀ x ∈ m.results, x.2 = Except.error e)
    (hc : consistent (Except.error e) (Except.error e) = true) :
    m.allOk consistent = some (.error (.ConsistentError e)) ∧
    m.reduceWithEquality consistent = some (.error (.ConsistentError e)) ∧
    m.reduceWithMinByKey consistent extractor = some (.error (.ConsistentError e)) ∧
    m.reduceWithStrictMajorityByKey consistent extractor
      = some (.error (.ConsistentError e)) := by
  have hallOk : m.allOk consistent = some (.error (.ConsistentError e)) := by
    rw [MultiCallResults.allOk]
    obtain ⟨⟨p, r⟩, rest, hcons⟩ := List.exists_cons_of_ne_nil hne
    have hr : r = Except.error e := hall _ (hcons ▸ List.mem_cons_self _ _)
    rw [hcons, hr, allOkLoop_error_none_step]
    apply allOkLoop_held
    intro x hx
    right
    have hx' := hall x (hcons ▸ List.mem_cons_of_mem _ hx)
    rw [hx']
    exact hc
  refine ⟨hallOk, ?_, ?_, ?_⟩
  · simp [MultiCallResults.reduceWithEquality, hallOk]
  · simp [MultiCallResults.reduceWithMinByKey, hallOk]
  · simp [MultiCallResults.reduceWithStrictMajorityByKey, hallOk]

/-- C8, witness: two providers both holding `JsonRpcError{32000, "x"}` with an
equality-based consistency predicate; `all_ok` and all three reductions yield
`ConsistentError (JsonRpcError{32000, "x"})`. -/
theorem allOk_same_error_consistent_witness :
    MultiCallResults.allOk (T := Nat) (fun a b => decide (a = b))
        ⟨[(0, Except.error (RpcError.JsonRpcError ⟨32000, "x"⟩)),
          (1, Except.error (RpcError.JsonRpcError ⟨32000, "x"⟩))]⟩
      = some (.error (.ConsistentError (RpcError.JsonRpcError ⟨32000, "x"⟩))) ∧
    MultiCallResults.reduceWithEquality (T := Nat) (fun a b => decide (a = b))
        ⟨[(0, Except.error (RpcError.JsonRpcError ⟨32000, "x"⟩)),
          (1, Except.error (RpcError.JsonRpcError ⟨32000, "x"⟩))]⟩
      = some (.error (.ConsistentError (RpcError.JsonRpcError ⟨32000, "x"⟩))) := by
  have h := allOk_same_error_consistent (T := Nat) (K := Nat)
    (fun a b => decide (a = b)) (fun v => v)
    ⟨[(0, Except.error (RpcError.JsonRpcError ⟨32000, "x"⟩)),
      (1, Except.error (RpcError.JsonRpcError ⟨32000, "x"⟩))]⟩
    (RpcError.JsonRpcError ⟨32000, "x"⟩)
    (by simp)
    (by
      intro x hx
      rcases List.mem_cons.mp hx with rfl | hx'
      · rfl
      · rcases List.mem_singleton.mp hx' with rfl
        rfl)
    (by decide)
  exact ⟨h.1, h.2.1⟩

/-- C2, counterexample: three providers share key 5; the bucket already holds
two equal-valued entries when the conflicting third value arrives, so the
failure carries all THREE entries — not "only the conflicting pair". -/
theorem strictMajority_conflict_not_pair :
    MultiCallResults.reduceWithStrictMajorityByKey (T := Nat × Nat) (K := Nat)
        (fun _ _ => true) Prod.fst
        ⟨[(0, Except.ok (5, 0)), (1, Except.ok (5, 0)), (2, Except.ok (5, 1))]⟩
      = some (.error (.InconsistentResults
          ⟨[(0, Except.ok (5, 0)), (1, Except.ok (5, 0)), (2, Except.ok (5, 1))]⟩)) ∧
    ([(0, Except.ok (5, 0)), (1, Except.ok (5, 0)), (2, Except.ok (5, 1))] :
        List (Provider × RpcResult (Nat × Nat))).length ≠ 2 :=
  ⟨rfl, by decide⟩

/-- C2, amended: when `reduce_with_strict_majority_by_key` meets a value whose
key already has a bucket and which differs from the bucket's representative
(its last entry), it fails immediately — the remaining entries are never
scanned — with `InconsistentResults` holding the WHOLE existing bucket for
that key plus the new conflicting entry, each re-wrapped as `Ok` (a pair
exactly when the bucket held a single entry).  The second conjunct shows the
two-provider pair case at the level of the full reduction, with the third
provider's value universally quantified (it is never inspected). -/
theorem strictMajority_sameKey_conflict {T K : Type} [LinearOrder K]
    [DecidableEq T] (extractor : T → K) (p : Provider) (v : T)
    (rest : List (Provider × T)) (votes votes₂ : List (K × List (Provider × T)))
    (bucket : List (Provider × T)) (q : Provider) (w : T)
    (hrem : mapRemove (extractor v) votes = some (bucket, votes₂))
    (hlast : bucket.getLast? = some (q, w)) (hne : v ≠ w) :
    buildVotes extractor ((p, v) :: rest) votes
      = some (.error (.InconsistentResults
          ⟨mapOfList ((bucket ++ [(p, v)]).map fun pr => (pr.1, Except.ok pr.2))⟩)) ∧
    ∀ (c : Nat × Nat)
      (consistent : RpcResult (Nat × Nat) → RpcResult (Nat × Nat) → Bool),
      MultiCallResults.reduceWithStrictMajorityByKey consistent Prod.fst
          ⟨[(0, Except.ok (5, 0)), (1, Except.ok (5, 1)), (2, Except.ok c)]⟩
        = some (.error (.InconsistentResults
            ⟨[(0, Except.ok (5, 0)), (1, Except.ok (5, 1))]⟩)) := by
  refine ⟨buildVotes_conflict extractor p v rest votes votes₂ bucket q w
    hrem hlast hne, ?_⟩
  intro c consistent
  rfl

/-- C2, witness: the bucket for key 5 already holds providers 0 and 1 with the
equal value `(5, 0)`; provider 2 arrives with `(5, 1)` and the failure lists
all three entries. -/
theorem strictMajority_sameKey_conflict_witness :
    buildVotes (T := Nat × Nat) (K := Nat) Prod.fst
        [(2, (5, 1))] [(5, [(0, (5, 0)), (1, (5, 0))])]
      = some (.error (.InconsistentResults
          ⟨[(0, Except.ok (5, 0)), (1, Except.ok (5, 0)), (2, Except.ok (5, 1))]⟩)) :=
  (strictMajority_sameKey_conflict Prod.fst 2 (5, 1) []
    [(5, [(0, (5, 0)), (1, (5, 0))])] [] [(0, (5, 0)), (1, (5, 0))] 1 (5, 0)
    (by rfl) (by rfl) (by decide)).1

/-- C3, counterexample: for `Ok 1, Ok 1, Ok 2` the inconsistency aggregate of
`reduce_with_equality` holds only the base entry (provider 0) and the
differing entry (provider 2); provider 1's entry, equal to the base, is NOT
included, refuting "contains all three entries". -/
theorem reduceWithEquality_not_all_three :
    MultiCallResults.reduceWithEquality (T := Nat) (fun _ _ => true)
        ⟨[(0, Except.ok 1), (1, Except.ok 1), (2, Except.ok 2)]⟩
      = some (.error (.InconsistentResults
          ⟨[(0, Except.ok 1), (2, Except.ok 2)]⟩)) ∧
    ((1 : Provider), (Except.ok 1 : RpcResult Nat))
      ∉ [((0 : Provider), (Except.ok 1 : RpcResult Nat)), (2, Except.ok 2)] :=
  ⟨rfl, by decide⟩

/-- C3, amended: for three providers returning `Ok v, Ok v, Ok v'` with
`v ≠ v'`, `reduce_with_equality` returns `InconsistentResults` containing the
base entry and the differing entry, both re-wrapped as `Ok`; the second
provider's entry, equal to the base, is omitted. -/
theorem reduceWithEquality_base_plus_differing {T : Type} [DecidableEq T]
    (consistent : RpcResult T → RpcResult T → Bool) (v v' : T) (hne : v ≠ v') :
    MultiCallResults.reduceWithEquality consistent
        ⟨[(0, Except.ok v), (1, Except.ok v), (2, Except.ok v')]⟩
      = some (.error (.InconsistentResults
          ⟨[(0, Except.ok v), (2, Except.ok v')]⟩)) := by
  have hok : MultiCallResults.allOk consistent
      ⟨[(0, Except.ok v), (1, Except.ok v), (2, Except.ok v')]⟩
      = some (.ok [(0, v), (1, v), (2, v')]) := by
    have h := allOkLoop_allOkEntries consistent [(0, v), (1, v), (2, v')] []
      (by simp) (by simp [keysSorted])
    simpa [MultiCallResults.allOk] using h
  have hfilter : List.filter (fun pr => decide (pr.2 ≠ v)) [(1, v), (2, v')]
      = [(2, v')] := by
    simp [List.filter_cons, hne, Ne.symm hne]
  simp only [MultiCallResults.reduceWithEquality, hok, hfilter]
  simp [MultiCallResults.fromNonEmptyIter, mapOfList, mapInsert]

/-- C3, witness for the amended theorem at `v = 1`, `v' = 2`. -/
theorem reduceWithEquality_base_plus_differing_witness :
    MultiCallResults.reduceWithEquality (T := Nat) (fun _ _ => true)
        ⟨[(0, Except.ok 1), (1, Except.ok 1), (2, Except.ok 2)]⟩
      = some (.error (.InconsistentResults
          ⟨[(0, Except.ok 1), (2, Except.ok 2)]⟩)) :=
  reduceWithEquality_base_plus_differing (fun _ _ => true) 1 2 (by decide)

/-- C9: for an all-Ok aggregate in which every value equals the first value in
provider-identity order, `reduce_with_equality` returns `Ok` of that first
(base) value. -/
theorem reduceWithEquality_unanimous {T : Type} [DecidableEq T]
    (consistent : RpcResult T → RpcResult T → Bool) (m : MultiCallResults T)
    (p0 : Provider) (v : T) (entries : List (Provider × T))
    (hm : m.results = ((p0, v) :: entries).map fun pv => (pv.1, Except.ok pv.2))
    (hs : keysSorted m.results)
    (hv : ∀ pv ∈ entries, pv.2 = v) :
    m.reduceWithEquality consistent = some (.ok v) := by
  have hsorted : keysSorted ((p0, v) :: entries) := by
    rw [hm, keysSorted, List.pairwise_map] at hs
    exact hs
  have hok : m.allOk consistent = some (.ok ((p0, v) :: entries)) := by
    rw [MultiCallResults.allOk, hm]
    simpa using allOkLoop_allOkEntries consistent ((p0, v) :: entries) []
      (by simp) hsorted
  have hfilter : entries.filter (fun pr => !decide (pr.2 = v)) = [] := by
    rw [List.filter_eq_nil_iff]
    intro x hx
    simp [hv x hx]
  simp [MultiCallResults.reduceWithEquality, hok, hfilter]

/-- C9, witness: two providers both returning `Ok 4`. -/
theorem reduceWithEquality_unanimous_witness :
    MultiCallResults.reduceWithEquality (T := Nat) (fun _ _ => true)
        ⟨[(0, Except.ok 4), (1, Except.ok 4)]⟩ = some (.ok 4) := by
  apply reduceWithEquality_unanimous (fun _ _ => true) _ 0 4 [(1, 4)] rfl
  · simp [keysSorted]
  · intro pv hpv
    rcases List.mem_singleton.mp hpv with rfl
    rfl

/-- C10: over an all-Ok aggregate, `reduce_with_min_by_key` returns a value
whose extracted key is minimal among all the values' keys, with no majority
requirement. -/
theorem reduceWithMinByKey_min {T K : Type} [LinearOrder K]
    (consistent : RpcResult T → RpcResult T → Bool) (extractor : T → K)
    (m : MultiCallResults T) (entries : List (Provider × T))
    (hm : m.results = entries.map fun pv => (pv.1, Except.ok pv.2))
    (hs : keysSorted m.results) (hne : entries ≠ []) :
    ∃ v, m.reduceWithMinByKey consistent extractor = some (.ok v) ∧
      v ∈ entries.map Prod.snd ∧
      ∀ w ∈ entries.map Prod.snd, extractor v ≤ extractor w := by
  have hsorted : keysSorted entries := by
    rw [hm, keysSorted, List.pairwise_map] at hs
    exact hs
  have hok : m.allOk consistent = some (.ok entries) := by
    rw [MultiCallResults.allOk, hm]
    simpa using allOkLoop_allOkEntries consistent entries [] (by simp) hsorted
  cases entries with
  | nil => exact absurd rfl hne
  | cons e es =>
    obtain ⟨v, heq, hmem, hmin⟩ := listMinByKey_spec extractor e.2 (es.map Prod.snd)
    refine ⟨v, ?_, by simpa using hmem, by simpa using hmin⟩
    simp only [MultiCallResults.reduceWithMinByKey, hok, List.map_cons, heq]

/-- C10, witness: over values keyed 10, 3, 7 the key-3 value is returned. -/
theorem reduceWithMinByKey_min_witness :
    MultiCallResults.reduceWithMinByKey (T := Nat × Nat) (K := Nat)
        (fun _ _ => true) Prod.fst
        ⟨[(0, Except.ok (10, 0)), (1, Except.ok (3, 1)), (2, Except.ok (7, 2))]⟩
      = some (.ok (3, 1)) := by
  obtain ⟨v, heq, hmem, hmin⟩ := reduceWithMinByKey_min (T := Nat × Nat) (K := Nat)
    (fun _ _ => true) Prod.fst
    ⟨[(0, Except.ok (10, 0)), (1, Except.ok (3, 1)), (2, Except.ok (7, 2))]⟩
    [(0, (10, 0)), (1, (3, 1)), (2, (7, 2))] rfl (by simp [keysSorted]) (by simp)
  have hv : v = (3, 1) := by
    have h1 := hmin (3, 1) (by simp)
    rcases (by simpa using hmem : v = (10, 0) ∨ v = (3, 1) ∨ v = (7, 2)) with
      rfl | rfl | rfl
    · simp at h1
    · rfl
    · simp at h1
  rw [hv] at heq
  exact heq

/-- C4: whenever any of the three reductions returns `Ok v`, the value `v` is
one of the `Ok` values some provider contributed to the input aggregate — no
reduction synthesises, averages, or merges a value no provider returned. -/
theorem reductions_never_fabricate {T K : Type} [DecidableEq T] [LinearOrder K]
    (consistent : RpcResult T → RpcResult T → Bool) (extractor : T → K)
    (m : MultiCallResults T) (v : T) :
    (m.reduceWithEquality consistent = some (.ok v) →
      ∃ p, (p, Except.ok v) ∈ m.results) ∧
    (m.reduceWithMinByKey consistent extractor = some (.ok v) →
      ∃ p, (p, Except.ok v) ∈ m.results) ∧
    (m.reduceWithStrictMajorityByKey consistent extractor = some (.ok v) →
      ∃ p, (p, Except.ok v) ∈ m.results) := by
  refine ⟨?_, ?_, ?_⟩
  · intro h
    cases h0 : m.allOk consistent with
    | none =>
      simp only [MultiCallResults.reduceWithEquality, h0] at h
      cases h
    | some r =>
      cases r with
      | error e =>
        simp only [MultiCallResults.reduceWithEquality, h0] at h
        cases h
      | ok res =>
        cases res with
        | nil =>
          simp only [MultiCallResults.reduceWithEquality, h0] at h
          cases h
        | cons base rest =>
          obtain ⟨bp, br⟩ := base
          simp only [MultiCallResults.reduceWithEquality, h0] at h
          split at h
          · simp only [Option.some.injEq, Except.ok.injEq] at h
            subst h
            exact ⟨bp, allOk_ok_mem h0 _ (List.mem_cons_self _ _)⟩
          · split at h
            · cases h
            · simp at h
  · intro h
    cases h0 : m.allOk consistent with
    | none =>
      simp only [MultiCallResults.reduceWithMinByKey, h0] at h
      cases h
    | some r =>
      cases r with
      | error e =>
        simp only [MultiCallResults.reduceWithMinByKey, h0] at h
        cases h
      | ok res =>
        simp only [MultiCallResults.reduceWithMinByKey, h0] at h
        cases hmin : listMinByKey extractor (res.map Prod.snd) with
        | none => rw [hmin] at h; cases h
        | some w =>
          rw [hmin] at h
          simp only [Option.some.injEq, Except.ok.injEq] at h
          subst h
          obtain ⟨⟨p, u⟩, hpu, hu⟩ := List.mem_map.mp (listMinByKey_mem hmin)
          simp only at hu
          subst hu
          exact ⟨p, allOk_ok_mem h0 _ hpu⟩
  · intro h
    cases h0 : m.allOk consistent with
    | none =>
      simp only [MultiCallResults.reduceWithStrictMajorityByKey, h0] at h
      cases h
    | some r =>
      cases r with
      | error e =>
        simp only [MultiCallResults.reduceWithStrictMajorityByKey, h0] at h
        cases h
      | ok res =>
        simp only [MultiCallResults.reduceWithStrictMajorityByKey, h0] at h
        cases hb : buildVotes extractor res [] with
        | none => simp only [hb] at h; cases h
        | some rv =>
          cases rv with
          | error e => simp only [hb] at h; cases h
          | ok votes =>
            simp only [hb] at h
            have hfrom : ∀ kb ∈ votes, ∀ pr ∈ kb.2, pr ∈ res :=
              buildVotes_from (by simp) (fun pr hpr => hpr) hb
            have hrev : ∀ kb ∈ (sortByLen votes).reverse, ∀ pr ∈ kb.2, pr ∈ res := by
              intro kb hkb
              exact hfrom kb (((sortByLen_perm votes).mem_iff).mp
                (List.mem_reverse.mp hkb))
            cases hrv : (sortByLen votes).reverse with
            | nil => simp only [hrv] at h; cases h
            | cons hd tl =>
              obtain ⟨key1, ballot1⟩ := hd
              cases tl with
              | nil =>
                simp only [hrv] at h
                cases hlast : ballot1.getLast? with
                | none => simp only [hlast] at h; cases h
                | some pv =>
                  simp only [hlast, Option.some.injEq, Except.ok.injEq] at h
                  subst h
                  have hmem : pv ∈ ballot1 := List.mem_of_mem_getLast? (by
                    rw [hlast]; rfl)
                  have hres : pv ∈ res := hrev (key1, ballot1)
                    (by rw [hrv]; exact List.mem_cons_self _ _) pv hmem
                  exact ⟨pv.1, allOk_ok_mem h0 _ hres⟩
              | cons hd2 tl2 =>
                obtain ⟨key2, ballot2⟩ := hd2
                simp only [hrv] at h
                split at h
                · cases hlast : ballot1.getLast? with
                  | none => simp only [hlast] at h; cases h
                  | some pv =>
                    simp only [hlast, Option.some.injEq, Except.ok.injEq] at h
                    subst h
                    have hmem : pv ∈ ballot1 := List.mem_of_mem_getLast? (by
                      rw [hlast]; rfl)
                    have hres : pv ∈ res := hrev (key1, ballot1)
                      (by rw [hrv]; exact List.mem_cons_self _ _) pv hmem
                    exact ⟨pv.1, allOk_ok_mem h0 _ hres⟩
                · split at h
                  · cases h
                  · simp at h

/-- C4, witness: all three reductions at concrete aggregates return a value
that some provider contributed. -/
theorem reductions_never_fabricate_witness :
    ((0 : Provider), (Except.ok (5, 77) : RpcResult (Nat × Nat)))
        ∈ [((0 : Provider), (Except.ok (5, 77) : RpcResult (Nat × Nat))),
           (1, Except.ok (5, 77)), (2, Except.ok (9, 88))] ∧
    ∃ p, (p, (Except.ok (9, 88) : RpcResult (Nat × Nat)))
        ∈ [((0 : Provider), (Except.ok (9, 88) : RpcResult (Nat × Nat))),
           (1, Except.ok (10, 1))] := by
  constructor
  · decide
  · exact (reductions_never_fabricate (T := Nat × Nat) (K := Nat)
      (fun _ _ => true) Prod.fst
      ⟨[(0, Except.ok (9, 88)), (1, Except.ok (10, 1))]⟩ (9, 88)).2.1 (by rfl)

/-- C5: after `reduce_with_strict_majority_by_key` buckets all values without
a same-key conflict: a bucket strictly larger than every other bucket wins
and its representative (the entry at the largest provider key) is returned;
when two buckets are tied in size and every other bucket is strictly
smaller (the two largest buckets are tied), the reduction fails with
`InconsistentResults` whose entries are exactly the merged contents of those
two buckets (stated as a permutation), each entry re-wrapped as `Ok`.  The
pairwise-distinct-provider hypothesis of the tie conjunct is the `BTreeMap`
representation invariant of the buckets. -/
theorem strictMajority_plurality {T K : Type} [LinearOrder K] [DecidableEq T]
    (consistent : RpcResult T → RpcResult T → Bool) (extractor : T → K)
    (m : MultiCallResults T) (res : List (Provider × T))
    (votes : List (K × List (Provider × T)))
    (h0 : m.allOk consistent = some (.ok res))
    (hb : buildVotes extractor res [] = some (.ok votes)) :
    (∀ (k₀ : K) (b₀ : List (Provider × T)) (q : Provider) (v : T),
      (k₀, b₀) ∈ votes →
      (∀ k b, (k, b) ∈ votes → k ≠ k₀ → b.length < b₀.length) →
      b₀.getLast? = some (q, v) →
      m.reduceWithStrictMajorityByKey consistent extractor = some (.ok v)) ∧
    (∀ (k₁ k₂ : K) (b₁ b₂ : List (Provider × T)),
      (k₁, b₁) ∈ votes → (k₂, b₂) ∈ votes → k₁ ≠ k₂ →
      b₁.length = b₂.length →
      (∀ k b, (k, b) ∈ votes → k ≠ k₁ → k ≠ k₂ → b.length < b₁.length) →
      (b₁ ++ b₂).Pairwise (fun x y => x.1 ≠ y.1) → b₁ ≠ [] →
      ∃ E, m.reduceWithStrictMajorityByKey consistent extractor
          = some (.error (.InconsistentResults E)) ∧
        E.results.Perm ((b₁ ++ b₂).map fun pr => (pr.1, Except.ok pr.2))) := by
  have hsorted : keysSorted votes := buildVotes_sorted (by simp [keysSorted]) hb
  have hperm : ((sortByLen votes).reverse).Perm votes :=
    (List.reverse_perm _).trans (sortByLen_perm votes)
  have hsortrev : (sortByLen votes).reverse.Pairwise
      (fun a b => b.2.length ≤ a.2.length) := by
    rw [List.pairwise_reverse]
    exact sortByLen_sorted votes
  have hne_keys : (sortByLen votes).reverse.Pairwise
      (fun a b => a.1 ≠ b.1) := by
    have h1 : votes.Pairwise (fun a b => a.1 ≠ b.1) :=
      hsorted.imp fun hab => ne_of_lt hab
    exact (List.Perm.pairwise_iff
      (fun hab => Ne.symm hab) hperm).mpr h1
  constructor
  · intro k₀ b₀ q v hmem hstrict hlast
    have hmemrev : (k₀, b₀) ∈ (sortByLen votes).reverse :=
      List.mem_reverse.mpr ((sortByLen_perm votes).mem_iff.mpr hmem)
    cases hrv : (sortByLen votes).reverse with
    | nil => rw [hrv] at hmemrev; cases hmemrev
    | cons hd tl =>
      obtain ⟨kh, bh⟩ := hd
      have hhd : kh = k₀ ∧ bh = b₀ := by
        rcases List.mem_cons.mp (hrv ▸ hmemrev) with heq | htl
        · exact ⟨(Prod.ext_iff.mp heq.symm).1, (Prod.ext_iff.mp heq.symm).2⟩
        · have hdmem : (kh, bh) ∈ votes := hperm.mem_iff.mp
            (by rw [hrv]; exact List.mem_cons_self _ _)
          have hpw := hrv ▸ hsortrev
          have hlen : b₀.length ≤ bh.length :=
            (List.pairwise_cons.mp hpw).1 (k₀, b₀) htl
          by_cases hk : kh = k₀
          · subst hk
            exact ⟨rfl, keysSorted_unique hsorted hdmem hmem⟩
          · have hcontra := hstrict kh bh hdmem hk
            exact absurd hlen (not_le.mpr hcontra)
      obtain ⟨rfl, rfl⟩ := hhd
      cases tl with
      | nil =>
        simp [MultiCallResults.reduceWithStrictMajorityByKey, h0, hb, hrv, hlast]
      | cons hd2 tl2 =>
        obtain ⟨k₂, b₂⟩ := hd2
        have hpw2 := hrv ▸ hne_keys
        have hk2 : kh ≠ k₂ :=
          (List.pairwise_cons.mp hpw2).1 (k₂, b₂) (List.mem_cons_self _ _)
        have hb2mem : (k₂, b₂) ∈ votes := hperm.mem_iff.mp
          (by rw [hrv]; exact List.mem_cons_of_mem _ (List.mem_cons_self _ _))
        have hlt : b₂.length < bh.length := hstrict k₂ b₂ hb2mem (Ne.symm hk2)
        simp only [MultiCallResults.reduceWithStrictMajorityByKey, h0, hb, hrv]
        rw [if_pos hlt]
        simp [hlast]
  · intro k₁ k₂ b₁ b₂ hmem₁ hmem₂ hk hlen hmax hnodup hb₁ne
    have hm₁ : (k₁, b₁) ∈ (sortByLen votes).reverse := hperm.mem_iff.mpr hmem₁
    have hm₂ : (k₂, b₂) ∈ (sortByLen votes).reverse := hperm.mem_iff.mpr hmem₂
    cases hrv : (sortByLen votes).reverse with
    | nil => rw [hrv] at hm₁; cases hm₁
    | cons hd tl =>
      obtain ⟨ka, ba⟩ := hd
      rw [hrv] at hm₁ hm₂
      have hpwlen := hrv ▸ hsortrev
      have hpwkey := hrv ▸ hne_keys
      have hdvotes : (ka, ba) ∈ votes := hperm.mem_iff.mp
        (by rw [hrv]; exact List.mem_cons_self _ _)
      have hhd : (k₁ = ka ∧ b₁ = ba) ∨ (k₂ = ka ∧ b₂ = ba) := by
        by_cases h1 : ka = k₁
        · have hv1 : (k₁, ba) ∈ votes := by rw [← h1]; exact hdvotes
          exact Or.inl ⟨h1.symm, (keysSorted_unique hsorted hv1 hmem₁).symm⟩
        · by_cases h2 : ka = k₂
          · have hv2 : (k₂, ba) ∈ votes := by rw [← h2]; exact hdvotes
            exact Or.inr ⟨h2.symm, (keysSorted_unique hsorted hv2 hmem₂).symm⟩
          · exfalso
            have hsmall : ba.length < b₁.length := hmax ka ba hdvotes h1 h2
            have hm₁tl : (k₁, b₁) ∈ tl := by
              rcases List.mem_cons.mp hm₁ with heq | htl
              · exact absurd (Prod.ext_iff.mp heq).1.symm h1
              · exact htl
            have hle : b₁.length ≤ ba.length :=
              (List.pairwise_cons.mp hpwlen).1 (k₁, b₁) hm₁tl
            omega
      rcases hhd with ⟨rfl, rfl⟩ | ⟨rfl, rfl⟩
      · -- the head of the reversed tally is (k₁, b₁)
        cases tl with
        | nil =>
          exfalso
          rcases List.mem_cons.mp hm₂ with heq | h'
          · exact hk (Prod.ext_iff.mp heq).1.symm
          · cases h'
        | cons hd₂ tl₂ =>
          obtain ⟨kb, bb⟩ := hd₂
          have hd₂votes : (kb, bb) ∈ votes := hperm.mem_iff.mp
            (by rw [hrv]; exact List.mem_cons_of_mem _ (List.mem_cons_self _ _))
          have hkb1 : kb ≠ k₁ := by
            have hx := (List.pairwise_cons.mp hpwkey).1 (kb, bb)
              (List.mem_cons_self _ _)
            exact fun heq => hx heq.symm
          have hsecond : b₂ = bb := by
            by_cases h2 : kb = k₂
            · have hv2 : (k₂, bb) ∈ votes := by rw [← h2]; exact hd₂votes
              exact (keysSorted_unique hsorted hv2 hmem₂).symm
            · exfalso
              have hsmall : bb.length < b₁.length :=
                hmax kb bb hd₂votes hkb1 h2
              have hm₂tl : (k₂, b₂) ∈ tl₂ := by
                rcases List.mem_cons.mp hm₂ with heq | h'
                · exact absurd (Prod.ext_iff.mp heq).1.symm hk
                · rcases List.mem_cons.mp h' with heq2 | h''
                  · exact absurd (Prod.ext_iff.mp heq2).1.symm h2
                  · exact h''
              have hle : b₂.length ≤ bb.length :=
                (List.pairwise_cons.mp
                  (List.pairwise_cons.mp hpwlen).2).1 (k₂, b₂) hm₂tl
              omega
          subst hsecond
          have hnil : (b₁ ++ b₂).map
              (fun pr => (pr.1, (Except.ok pr.2 : RpcResult T))) ≠ [] := by
            simp [hb₁ne]
          have hmol := mapOfList_ne_nil hnil
          refine ⟨⟨mapOfList ((b₁ ++ b₂).map fun pr => (pr.1, Except.ok pr.2))⟩,
            ?_, ?_⟩
          · simp only [MultiCallResults.reduceWithStrictMajorityByKey, h0, hb, hrv]
            rw [if_neg (by rw [hlen]; exact lt_irrefl _)]
            simp only [MultiCallResults.fromNonEmptyIter]
            rw [if_neg (by simpa [List.isEmpty_iff] using hmol)]
          · have hpairs : ((b₁ ++ b₂).map
                fun pr => (pr.1, (Except.ok pr.2 : RpcResult T))).Pairwise
                (fun x y => x.1 ≠ y.1) := by
              rw [List.pairwise_map]
              exact hnodup
            exact mapOfList_perm hpairs
      · -- the head of the reversed tally is (k₂, b₂)
        cases tl with
        | nil =>
          exfalso
          rcases List.mem_cons.mp hm₁ with heq | h'
          · exact hk (Prod.ext_iff.mp heq).1
          · cases h'
        | cons hd₂ tl₂ =>
          obtain ⟨kb, bb⟩ := hd₂
          have hd₂votes : (kb, bb) ∈ votes := hperm.mem_iff.mp
            (by rw [hrv]; exact List.mem_cons_of_mem _ (List.mem_cons_self _ _))
          have hkb2 : kb ≠ k₂ := by
            have hx := (List.pairwise_cons.mp hpwkey).1 (kb, bb)
              (List.mem_cons_self _ _)
            exact fun heq => hx heq.symm
          have hsecond : b₁ = bb := by
            by_cases h1 : kb = k₁
            · have hv1 : (k₁, bb) ∈ votes := by rw [← h1]; exact hd₂votes
              exact (keysSorted_unique hsorted hv1 hmem₁).symm
            · exfalso
              have hsmall : bb.length < b₁.length :=
                hmax kb bb hd₂votes h1 hkb2
              have hm₁tl : (k₁, b₁) ∈ tl₂ := by
                rcases List.mem_cons.mp hm₁ with heq | h'
                · exact absurd (Prod.ext_iff.mp heq).1 hk
                · rcases List.mem_cons.mp h' with heq2 | h''
                  · exact absurd (Prod.ext_iff.mp heq2).1.symm h1
                  · exact h''
              have hle : b₁.length ≤ bb.length :=
                (List.pairwise_cons.mp
                  (List.pairwise_cons.mp hpwlen).2).1 (k₁, b₁) hm₁tl
              omega
          subst hsecond
          have hb₂ne : b₂ ≠ [] := by
            intro hn
            rw [hn] at hlen
            simp at hlen
            exact hb₁ne hlen
          have hnil : (b₂ ++ b₁).map
              (fun pr => (pr.1, (Except.ok pr.2 : RpcResult T))) ≠ [] := by
            simp [hb₂ne]
          have hmol := mapOfList_ne_nil hnil
          refine ⟨⟨mapOfList ((b₂ ++ b₁).map fun pr => (pr.1, Except.ok pr.2))⟩,
            ?_, ?_⟩
          · simp only [MultiCallResults.reduceWithStrictMajorityByKey, h0, hb, hrv]
            rw [if_neg (by rw [hlen]; exact lt_irrefl _)]
            simp only [MultiCallResults.fromNonEmptyIter]
            rw [if_neg (by simpa [List.isEmpty_iff] using hmol)]
          · have hp21 : (b₂ ++ b₁).Pairwise (fun x y => x.1 ≠ y.1) :=
              (List.Perm.pairwise_iff (fun hab => Ne.symm hab)
                (List.perm_append_comm)).mp hnodup
            have hpairs : ((b₂ ++ b₁).map
                fun pr => (pr.1, (Except.ok pr.2 : RpcResult T))).Pairwise
                (fun x y => x.1 ≠ y.1) := by
              rw [List.pairwise_map]
              exact hp21
            exact (mapOfList_perm hpairs).trans
              ((@List.perm_append_comm _ b₂ b₁).map
                fun pr => (pr.1, Except.ok pr.2))

/-- C5, witness: keys `[A, A, B]` with equal `A`-values return the `A` value
(bucket 2 beats 1); keys `[A, A, B, B]` (2 vs 2) fail with all four entries
across the two tied buckets; keys `[A, A, B, B, C]` (bucket sizes 2-2-1)
fail with the merged contents of exactly the two tied size-2 buckets, the
smaller `C` bucket excluded. -/
theorem strictMajority_plurality_witness :
    (MultiCallResults.reduceWithStrictMajorityByKey (T := Nat × Nat) (K := Nat)
        (fun _ _ => true) Prod.fst
        ⟨[(0, Except.ok (5, 77)), (1, Except.ok (5, 77)), (2, Except.ok (9, 88))]⟩
      = some (.ok (5, 77))) ∧
    (∃ E, MultiCallResults.reduceWithStrictMajorityByKey (T := Nat × Nat)
        (K := Nat) (fun _ _ => true) Prod.fst
        ⟨[(0, Except.ok (5, 77)), (1, Except.ok (5, 77)),
          (2, Except.ok (9, 88)), (3, Except.ok (9, 88))]⟩
      = some (.error (.InconsistentResults E)) ∧
      E.results.Perm [(0, Except.ok (5, 77)), (1, Except.ok (5, 77)),
        (2, Except.ok (9, 88)), (3, Except.ok (9, 88))]) ∧
    (∃ E, MultiCallResults.reduceWithStrictMajorityByKey (T := Nat × Nat)
        (K := Nat) (fun _ _ => true) Prod.fst
        ⟨[(0, Except.ok (5, 77)), (1, Except.ok (5, 77)),
          (2, Except.ok (9, 88)), (3, Except.ok (9, 88)), (4, Except.ok (11, 99))]⟩
      = some (.error (.InconsistentResults E)) ∧
      E.results.Perm [(0, Except.ok (5, 77)), (1, Except.ok (5, 77)),
        (2, Except.ok (9, 88)), (3, Except.ok (9, 88))]) := by
  refine ⟨?_, ?_, ?_⟩
  · exact (strictMajority_plurality (fun _ _ => true) Prod.fst
      ⟨[(0, Except.ok (5, 77)), (1, Except.ok (5, 77)), (2, Except.ok (9, 88))]⟩
      [(0, (5, 77)), (1, (5, 77)), (2, (9, 88))]
      [(5, [(0, (5, 77)), (1, (5, 77))]), (9, [(2, (9, 88))])]
      (by rfl) (by rfl)).1
      5 [(0, (5, 77)), (1, (5, 77))] 1 (5, 77)
      (by simp)
      (by
        intro k b hkb hne
        rcases List.mem_cons.mp hkb with heq | hkb'
        · exact absurd (Prod.ext_iff.mp heq).1 hne
        · have heq := List.mem_singleton.mp hkb'
          cases heq
          decide)
      (by rfl)
  · exact (strictMajority_plurality (fun _ _ => true) Prod.fst
      ⟨[(0, Except.ok (5, 77)), (1, Except.ok (5, 77)),
        (2, Except.ok (9, 88)), (3, Except.ok (9, 88))]⟩
      [(0, (5, 77)), (1, (5, 77)), (2, (9, 88)), (3, (9, 88))]
      [(5, [(0, (5, 77)), (1, (5, 77))]), (9, [(2, (9, 88)), (3, (9, 88))])]
      (by rfl) (by rfl)).2
      5 9 [(0, (5, 77)), (1, (5, 77))] [(2, (9, 88)), (3, (9, 88))]
      (by simp) (by simp) (by decide) rfl
      (by
        intro k b hkb h5 h9
        rcases List.mem_cons.mp hkb with heq | hkb'
        · exact absurd (Prod.ext_iff.mp heq).1 h5
        · have heq := List.mem_singleton.mp hkb'
          exact absurd (Prod.ext_iff.mp heq).1 h9)
      (by decide) (by decide)
  · exact (strictMajority_plurality (fun _ _ => true) Prod.fst
      ⟨[(0, Except.ok (5, 77)), (1, Except.ok (5, 77)),
        (2, Except.ok (9, 88)), (3, Except.ok (9, 88)), (4, Except.ok (11, 99))]⟩
      [(0, (5, 77)), (1, (5, 77)), (2, (9, 88)), (3, (9, 88)), (4, (11, 99))]
      [(5, [(0, (5, 77)), (1, (5, 77))]), (9, [(2, (9, 88)), (3, (9, 88))]),
       (11, [(4, (11, 99))])]
      (by rfl) (by rfl)).2
      5 9 [(0, (5, 77)), (1, (5, 77))] [(2, (9, 88)), (3, (9, 88))]
      (by simp) (by simp) (by decide) rfl
      (by
        intro k b hkb h5 h9
        rcases List.mem_cons.mp hkb with heq | hkb'
        · exact absurd (Prod.ext_iff.mp heq).1 h5
        · rcases List.mem_cons.mp hkb' with heq2 | hkb''
          · exact absurd (Prod.ext_iff.mp heq2).1 h9
          · have heq3 := List.mem_singleton.mp hkb''
            cases heq3
            decide)
      (by decide) (by decide)

end EthRpcClient
